import Mathlib

/-!
Verification of the backtesting engine (`src/backtest.py`, `src/backtest_min.py`).

The engine works on pandas DataFrames of price bars.  We embed it shallowly:

* a DataFrame row is a `Bar` (only the `date` and `close` columns are ever
  read by the engine, so the unused open/high/low/volume columns are omitted);
* float columns are modelled over `ℚ`; a missing value (pandas `NaN`, and the
  non-finite results of dividing by zero) is modelled as `none` in `Option ℚ`,
  and the pandas NaN-propagation and `skipna` rules are spelled out in the
  column operations below;
* the statistics that multiply by `np.sqrt(...)` or raise to a fractional
  power are valued in `Option ℝ`;
* the only exception the engine can raise (`equity.iloc[-1]` on an empty
  frame) is modelled with `Except`.
-/

namespace AlgoTrading

/-- One row of the price DataFrame `data`.  The engine reads only the `date`
and `close` columns; dates are abstract ordered tags. -/
structure Bar where
  date : ℕ
  close : ℚ
  deriving DecidableEq, Repr

/-- Multiplication with NaN propagation, as in pandas column arithmetic. -/
def omul : Option ℚ → Option ℚ → Option ℚ
  | some a, some b => some (a * b)
  | _, _ => none

/-- Subtraction with NaN propagation. -/
def osub : Option ℚ → Option ℚ → Option ℚ
  | some a, some b => some (a - b)
  | _, _ => none

/-- Division with NaN propagation.  Dividing by zero gives a non-finite float
in numpy; it is modelled as an abnormal value (`none`).  All theorems about
the engine assume nonzero close prices, where that branch is unreachable. -/
def odiv : Option ℚ → Option ℚ → Option ℚ
  | some a, some b => if b = 0 then none else some (a / b)
  | _, _ => none

/-- Python comparison `x == 0` (False when `x` is NaN). -/
def pyEqZero : Option ℚ → Bool
  | some a => a == 0
  | none => false

/-- Python comparison `x != 0` (True when `x` is NaN). -/
def pyNeZero : Option ℚ → Bool
  | some a => a != 0
  | none => true

/-- Python comparison `x != y` (True when either side is NaN). -/
def pyNe : Option ℚ → Option ℚ → Bool
  | some a, some b => a != b
  | _, _ => true

/-- Python comparison `x > 0` (False when `x` is NaN). -/
def pyGtZero : Option ℚ → Bool
  | some a => decide (0 < a)
  | none => false

/-- The `close` value of row `t` (only meaningful for `t < bars.length`). -/
def closeAt (bars : List Bar) (t : ℕ) : ℚ :=
  ((bars[t]?).map Bar.close).getD 0

/-- The `date` value of row `t` (only meaningful for `t < bars.length`). -/
def dateAt (bars : List Bar) (t : ℕ) : ℕ :=
  ((bars[t]?).map Bar.date).getD 0

/-- `df["signal"] = signals.shift(1).fillna(0)`.  The shifted-and-filled
series still has the index of `signals`; assigning it as a column of `df`
aligns on the index, so rows of `df` beyond the length of `signals` receive
NaN. -/
def signalCol (signals : List ℚ) (t : ℕ) : Option ℚ :=
  if t < signals.length then some (if t = 0 then 0 else signals.getD (t - 1) 0)
  else none

/-- `df["ret"] = df["close"].pct_change().fillna(0)`. -/
def retCol (bars : List Bar) (t : ℕ) : Option ℚ :=
  if t = 0 then some 0
  else match bars[t]?, bars[t - 1]? with
    | some b, some p => if p.close = 0 then none else some (b.close / p.close - 1)
    | _, _ => none

/-- `df["strategy_ret"] = df["signal"] * df["ret"]`. -/
def strategyRet (bars : List Bar) (signals : List ℚ) (t : ℕ) : Option ℚ :=
  omul (signalCol signals t) (retCol bars t)

/-- `df["trade_change"] = df["signal"].diff().abs().fillna(0)`.  The final
`fillna(0)` turns the NaN at index 0 (and any NaN coming from a misaligned
signal column) into 0. -/
def tradeChange (signals : List ℚ) (t : ℕ) : ℚ :=
  if t = 0 then 0
  else match signalCol signals t, signalCol signals (t - 1) with
    | some a, some b => |a - b|
    | _, _ => 0

/-- `df["costs"] = df["trade_change"] * (self.commission + self.slippage)`. -/
def costs (c s : ℚ) (signals : List ℚ) (t : ℕ) : ℚ :=
  tradeChange signals t * (c + s)

/-- `df["net_ret"] = df["strategy_ret"] - df["costs"]`. -/
def netRet (c s : ℚ) (bars : List Bar) (signals : List ℚ) (t : ℕ) : Option ℚ :=
  osub (strategyRet bars signals t) (some (costs c s signals t))

/-- Running product of `1 + r` over the non-NaN entries among indices
`0..t`; NaN entries contribute a factor `1` (pandas `cumprod` skips them). -/
def cumFactor (f : ℕ → Option ℚ) (t : ℕ) : ℚ :=
  ((List.range (t + 1)).map fun k => (((f k).map fun v => 1 + v).getD 1)).prod

/-- `(1 + series).cumprod()` with the pandas default `skipna=True`: NaN
entries stay NaN in the output and are skipped in the running product. -/
def cumProdCol (f : ℕ → Option ℚ) (t : ℕ) : Option ℚ :=
  (f t).map fun _ => cumFactor f t

/-- `df["equity"] = (1 + df["net_ret"]).cumprod() * initial_capital`. -/
def equityCol (c s : ℚ) (bars : List Bar) (signals : List ℚ) (cap : ℚ) (t : ℕ) :
    Option ℚ :=
  (cumProdCol (netRet c s bars signals) t).map fun v => v * cap

/-- One trade dict appended by the scan loop.  `entry_date`/`entry_price`
mirror Python variables that are `None` until first assigned. -/
structure Trade where
  entry_date : Option ℕ
  exit_date : ℕ
  entry_price : Option ℚ
  exit_price : ℚ
  pnl : Option ℚ
  deriving DecidableEq, Repr

/-- The mutable variables of the trade-extraction loop:
`position = 0`, `entry_price = None`, `entry_date = None`. -/
structure ScanState where
  position : Option ℚ
  entry_price : Option ℚ
  entry_date : Option ℕ
  deriving DecidableEq, Repr

def initScan : ScanState := ⟨some 0, none, none⟩

/-- The fields of one row seen by `df.iterrows()`. -/
structure Row where
  date : ℕ
  close : ℚ
  signal : Option ℚ
  deriving DecidableEq, Repr

/-- The rows of the augmented DataFrame, in index order. -/
def rowsOf (bars : List Bar) (signals : List ℚ) : List Row :=
  (List.range bars.length).map fun t =>
    ⟨dateAt bars t, closeAt bars t, signalCol signals t⟩

/-- `pnl = (exit_price / entry_price - 1) * position`. -/
def tradePnl (entry : Option ℚ) (exitP : ℚ) (pos : Option ℚ) : Option ℚ :=
  omul (osub (odiv (some exitP) entry) (some 1)) pos

/-- The body of the `for i, row in df.iterrows()` loop. -/
def tradeStep (st : ScanState × List Trade) (row : Row) : ScanState × List Trade :=
  if pyEqZero st.1.position && pyNeZero row.signal then
    (⟨row.signal, some row.close, some row.date⟩, st.2)
  else if pyNeZero st.1.position && pyNe row.signal st.1.position then
    (⟨row.signal, some row.close,
        if pyNeZero row.signal then some row.date else none⟩,
      st.2 ++ [⟨st.1.entry_date, row.date, st.1.entry_price, row.close,
        tradePnl st.1.entry_price row.close st.1.position⟩])
  else st

/-- Loop state after the first `k` iterations of the scan. -/
def scanAfter (bars : List Bar) (signals : List ℚ) (k : ℕ) :
    ScanState × List Trade :=
  ((rowsOf bars signals).take k).foldl tradeStep (initScan, [])

/-- The full list of trades collected by the scan loop. -/
def tradesOf (bars : List Bar) (signals : List ℚ) : List Trade :=
  ((rowsOf bars signals).foldl tradeStep (initScan, [])).2

/-- The non-NaN values of a column, in order (pandas `skipna`). -/
def validList (rs : List (Option ℚ)) : List ℚ := rs.filterMap id

def meanVal (xs : List ℚ) : ℚ := xs.sum / (xs.length : ℚ)

/-- `Series.mean()`: NaN when there are no valid values. -/
def meanQ (xs : List ℚ) : Option ℚ :=
  if xs.length = 0 then none else some (meanVal xs)

/-- Sample variance with `ddof=1` (the pandas default); only used behind the
`length < 2` guard of `stdR`. -/
def varQ (xs : List ℚ) : ℚ :=
  ((xs.map fun x => (x - meanVal xs) ^ 2).sum) / ((xs.length : ℚ) - 1)

/-- `Series.std()` with `ddof=1`: NaN for fewer than two valid observations. -/
noncomputable def stdR (xs : List ℚ) : Option ℝ :=
  if xs.length < 2 then none else some (Real.sqrt (varQ xs))

noncomputable def omulR : Option ℝ → Option ℝ → Option ℝ
  | some a, some b => some (a * b)
  | _, _ => none

noncomputable def odivR : Option ℝ → Option ℝ → Option ℝ
  | some a, some b => if b = 0 then none else some (a / b)
  | _, _ => none

/-- Python `x > 0` on a possibly-NaN float (False for NaN). -/
def posR : Option ℝ → Prop
  | some a => 0 < a
  | none => False

/-- `vol = returns.std() * np.sqrt(A)`. -/
noncomputable def volOf (A : ℕ) (rs : List (Option ℚ)) : Option ℝ :=
  (stdR (validList rs)).map fun x => x * Real.sqrt (A : ℝ)

open Classical in
/-- `sharpe = returns.mean()/returns.std() * np.sqrt(A) if vol > 0 else 0`. -/
noncomputable def sharpeOf (A : ℕ) (rs : List (Option ℚ)) : Option ℝ :=
  if posR (volOf A rs) then
    omulR (odivR ((meanQ (validList rs)).map fun q => (q : ℝ)) (stdR (validList rs)))
      (some (Real.sqrt (A : ℝ)))
  else some 0

/-- `downside = returns[returns < 0].std() * np.sqrt(A)`.  Boolean masking
with `returns < 0` drops NaN entries (NaN comparisons are False). -/
noncomputable def downsideOf (A : ℕ) (rs : List (Option ℚ)) : Option ℝ :=
  (stdR ((validList rs).filter fun x => x < 0)).map fun x => x * Real.sqrt (A : ℝ)

open Classical in
/-- `sortino = returns.mean()/downside if downside > 0 else 0`. -/
noncomputable def sortinoOf (A : ℕ) (rs : List (Option ℚ)) : Option ℝ :=
  if posR (downsideOf A rs) then
    odivR ((meanQ (validList rs)).map fun q => (q : ℝ)) (downsideOf A rs)
  else some 0

/-- The equity multiplier recomputed inside `_calc_stats`:
`equity = (1 + returns).cumprod()`. -/
def eqStat (rs : List (Option ℚ)) (t : ℕ) : Option ℚ :=
  cumProdCol (fun k => rs.getD k none) t

/-- `equity.iloc[-1]`, assuming the series is nonempty. -/
def lastEq (rs : List (Option ℚ)) : Option ℚ := eqStat rs (rs.length - 1)

/-- `cagr = equity.iloc[-1]**(A/len(equity)) - 1`.  numpy yields NaN for a
fractional power of a negative base, modelled as `none`. -/
noncomputable def cagrOf (A : ℕ) (rs : List (Option ℚ)) : Option ℝ :=
  match lastEq rs with
  | some e => if e < 0 then none else some ((e : ℝ) ^ ((A : ℝ) / (rs.length : ℝ)) - 1)
  | none => none

/-- `equity.cummax()` with the pandas `skipna` semantics. -/
def cumMaxCol (f : ℕ → Option ℚ) (t : ℕ) : Option ℚ :=
  (f t).map fun v => ((List.range t).filterMap f).foldl max v

/-- One entry of `(equity / equity.cummax()) - 1`. -/
def ddCol (rs : List (Option ℚ)) (t : ℕ) : Option ℚ :=
  osub (odiv (eqStat rs t) (cumMaxCol (eqStat rs) t)) (some 1)

/-- `Series.min()`: the minimum of the valid entries, NaN when there are
none. -/
def seriesMin : List ℚ → Option ℚ
  | [] => none
  | x :: xs => some (xs.foldl min x)

/-- `max_dd = ((equity / equity.cummax()) - 1).min()`. -/
def maxDDOf (rs : List (Option ℚ)) : Option ℚ :=
  seriesMin ((List.range rs.length).filterMap fun t => ddCol rs t)

/-- `winrate = (trades["pnl"] > 0).mean() if not trades.empty else 0`.  The
mean of the boolean mask is the count of positive-pnl rows over the number of
rows; `NaN > 0` is False and counts as a loss. -/
def winrateOf (trades : List Trade) : ℚ :=
  if trades.length = 0 then 0
  else ((trades.countP fun tr => pyGtZero tr.pnl : ℕ) : ℚ) / (trades.length : ℚ)

/-- `"Final Equity": equity.iloc[-1] * initial_capital`. -/
def finalEquityOf (rs : List (Option ℚ)) (cap : ℚ) : Option ℚ :=
  (lastEq rs).map fun e => e * cap

/-- The metric dict returned by `_calc_stats`. -/
structure Stats where
  cagr : Option ℝ
  volatility : Option ℝ
  sharpe : Option ℝ
  sortino : Option ℝ
  maxDD : Option ℚ
  winrate : ℚ
  finalEquity : Option ℚ

structure BacktestResult where
  equity_curve : List (Option ℚ)
  trades : List Trade
  stats : Stats

def exceptOk {ε α : Type} : Except ε α → Bool
  | .ok _ => true
  | .error _ => false

/-- `Backtester._calc_stats`: on an empty frame the very first statistic,
`equity.iloc[-1]**(252/len(equity)) - 1`, raises (IndexError); otherwise all
metrics are produced, annualized with the hard-coded constant 252. -/
noncomputable def calcStats (rs : List (Option ℚ)) (trades : List Trade) (cap : ℚ) :
    Except String Stats :=
  if rs.length = 0 then Except.error "IndexError"
  else Except.ok ⟨cagrOf 252 rs, volOf 252 rs, sharpeOf 252 rs, sortinoOf 252 rs,
    maxDDOf rs, winrateOf trades, finalEquityOf rs cap⟩

/-- `BacktesterMin._calc_stats`: identical formulas, annualized with the
constructor parameter `bars_per_year`. -/
noncomputable def calcStatsMin (bpy : ℕ) (rs : List (Option ℚ)) (trades : List Trade)
    (cap : ℚ) : Except String Stats :=
  if rs.length = 0 then Except.error "IndexError"
  else Except.ok ⟨cagrOf bpy rs, volOf bpy rs, sharpeOf bpy rs, sortinoOf bpy rs,
    maxDDOf rs, winrateOf trades, finalEquityOf rs cap⟩

namespace Backtester

/-- `Backtester.run`: builds the derived columns, the equity curve and the
trade list, then calls `_calc_stats` (which is where the only possible
exception arises). -/
noncomputable def run (c s : ℚ) (bars : List Bar) (signals : List ℚ) (cap : ℚ) :
    Except String BacktestResult :=
  match calcStats ((List.range bars.length).map (netRet c s bars signals))
      (tradesOf bars signals) cap with
  | Except.error e => Except.error e
  | Except.ok st =>
      Except.ok ⟨(List.range bars.length).map (equityCol c s bars signals cap),
        tradesOf bars signals, st⟩

end Backtester

namespace BacktesterMin

/-- `BacktesterMin.run`: the same pipeline, with `_calc_stats` annualized by
`bars_per_year`. -/
noncomputable def run (c s : ℚ) (bpy : ℕ) (bars : List Bar) (signals : List ℚ)
    (cap : ℚ) : Except String BacktestResult :=
  match calcStatsMin bpy ((List.range bars.length).map (netRet c s bars signals))
      (tradesOf bars signals) cap with
  | Except.error e => Except.error e
  | Except.ok st =>
      Except.ok ⟨(List.range bars.length).map (equityCol c s bars signals cap),
        tradesOf bars signals, st⟩

end BacktesterMin

/-- LaggedPosition from the spec data model:
`LaggedPosition[t] = Signal[t-1]` for `t > 0`, `0` for `t = 0`. -/
def laggedPosition (signals : List ℚ) (t : ℕ) : ℚ :=
  if t = 0 then 0 else signals.getD (t - 1) 0

/-- MarketReturn from the spec data model:
`MarketReturn[t] = close[t]/close[t-1] - 1` for `t ≥ 1`, `0` at `t = 0`. -/
def marketReturn (bars : List Bar) (t : ℕ) : ℚ :=
  if t = 0 then 0 else closeAt bars t / closeAt bars (t - 1) - 1

theorem getD_map_range {α : Type} (f : ℕ → α) {n t : ℕ} (d : α) :
    ((List.range n).map f).getD t d = if t < n then f t else d := by
  rcases lt_or_ge t n with h | h
  · rw [List.getD_eq_getElem?_getD, List.getElem?_map, List.getElem?_range h]
    simp [h]
  · rw [List.getD_eq_getElem?_getD, List.getElem?_eq_none (by simpa using h)]
    simp [Nat.not_lt.mpr h]

theorem rowsOf_getElem? (bars : List Bar) (signals : List ℚ) {t : ℕ}
    (h : t < bars.length) :
    (rowsOf bars signals)[t]? =
      some ⟨dateAt bars t, closeAt bars t, signalCol signals t⟩ := by
  simp [rowsOf, List.getElem?_map, List.getElem?_range h]

theorem scanAfter_zero (bars : List Bar) (signals : List ℚ) :
    scanAfter bars signals 0 = (initScan, []) := rfl

/-- Unrolling one iteration of the scan loop. -/
theorem scanAfter_succ (bars : List Bar) (signals : List ℚ) {k : ℕ}
    (h : k < bars.length) :
    scanAfter bars signals (k + 1) =
      tradeStep (scanAfter bars signals k)
        ⟨dateAt bars k, closeAt bars k, signalCol signals k⟩ := by
  unfold scanAfter
  rw [List.take_succ, rowsOf_getElem? bars signals h]
  simp [List.foldl_append]

/-- Loop invariant: when the signal series is index-aligned with the bars,
the `position` variable after processing bar `k` equals the lagged signal at
bar `k`. -/
theorem scan_position (bars : List Bar) (signals : List ℚ)
    (hlen : signals.length = bars.length) :
    ∀ k, k < bars.length →
      (scanAfter bars signals (k + 1)).1.position = signalCol signals k := by
  intro k
  induction k with
  | zero =>
      intro h0
      have hs : signalCol signals 0 = some 0 := by
        simp [signalCol, show 0 < signals.length by omega]
      rw [scanAfter_succ bars signals h0, hs]
      simp [scanAfter, tradeStep, initScan, pyEqZero, pyNeZero]
  | succ k ih =>
      intro hk1
      have hk : k < bars.length := by omega
      obtain ⟨v, hv⟩ : ∃ v, signalCol signals k = some v :=
        ⟨if k = 0 then 0 else signals.getD (k - 1) 0, by
          simp [signalCol, show k < signals.length by omega]⟩
      obtain ⟨w, hw⟩ : ∃ w, signalCol signals (k + 1) = some w :=
        ⟨signals.getD k 0, by
          simp [signalCol, show k + 1 < signals.length by omega]⟩
      have hp : (scanAfter bars signals (k + 1)).1.position = some v := (ih hk).trans hv
      rw [scanAfter_succ bars signals hk1, hw]
      by_cases h1 : v = 0
      · by_cases h2 : w = 0
        · simp [tradeStep, hp, pyEqZero, pyNeZero, pyNe, h1, h2]
        · simp [tradeStep, hp, pyEqZero, pyNeZero, pyNe, h1, h2]
      · by_cases h2 : w = v
        · simp [tradeStep, hp, pyEqZero, pyNeZero, pyNe, h1, h2]
        · simp [tradeStep, hp, pyEqZero, pyNeZero, pyNe, h1, h2]

/-- Rows whose (lagged) signal is 0 leave a flat scan state untouched. -/
theorem foldl_flat (rows : List Row) :
    ∀ st : ScanState × List Trade,
      (∀ r ∈ rows, r.signal = some 0) → st.1.position = some 0 →
      rows.foldl tradeStep st = st := by
  induction rows with
  | nil => intro st _ _; rfl
  | cons r rows ih =>
      intro st hall hpos
      have hr : r.signal = some 0 := hall r (by simp)
      have hstep : tradeStep st r = st := by
        simp [tradeStep, hr, hpos, pyEqZero, pyNeZero]
      rw [List.foldl_cons, hstep]
      exact ih st (fun q hq => hall q (by simp [hq])) hpos

/-- Rows whose (lagged) signal is constantly 1 never close a trade: starting
flat or long, the scan emits nothing on them. -/
theorem foldl_ones (rows : List Row) :
    ∀ (st : ScanState) (acc : List Trade),
      (∀ r ∈ rows, r.signal = some 1) →
      (st.position = some 0 ∨ st.position = some 1) →
      (rows.foldl tradeStep (st, acc)).2 = acc := by
  induction rows with
  | nil => intro st acc _ _; rfl
  | cons r rows ih =>
      intro st acc hall hpos
      have hr : r.signal = some 1 := hall r (by simp)
      rcases hpos with h0 | h1
      · have hstep : tradeStep (st, acc) r = (⟨r.signal, some r.close, some r.date⟩, acc) := by
          simp [tradeStep, hr, h0, pyEqZero, pyNeZero]
        rw [List.foldl_cons, hstep]
        exact ih _ acc (fun q hq => hall q (by simp [hq])) (Or.inr (by simp [hr]))
      · have hstep : tradeStep (st, acc) r = (st, acc) := by
          simp [tradeStep, hr, h1, pyEqZero, pyNeZero, pyNe]
        rw [List.foldl_cons, hstep]
        exact ih _ acc (fun q hq => hall q (by simp [hq])) (Or.inr h1)

/-- For aligned indices the lagged signal column carries exactly the spec's
LaggedPosition value. -/
theorem signalCol_eq_lagged (signals : List ℚ) (bars : List Bar)
    (hlen : signals.length = bars.length) {t : ℕ} (ht : t < bars.length) :
    signalCol signals t = some (laggedPosition signals t) := by
  simp [signalCol, laggedPosition, show t < signals.length by omega]

/-- With nonzero closes the return column carries exactly the spec's
MarketReturn value. -/
theorem retCol_eq_market (bars : List Bar) (hpos : ∀ b ∈ bars, b.close ≠ 0)
    {t : ℕ} (ht : t < bars.length) :
    retCol bars t = some (marketReturn bars t) := by
  rcases Nat.eq_zero_or_pos t with h0 | hpos1
  · subst h0
    simp [retCol, marketReturn]
  · have ht1 : t - 1 < bars.length := by omega
    have hb : bars[t]? = some bars[t] := List.getElem?_eq_getElem ht
    have hp : bars[t - 1]? = some bars[t - 1] := List.getElem?_eq_getElem ht1
    have hcz : bars[t - 1].close ≠ 0 := hpos _ (List.getElem_mem ht1)
    rw [retCol, if_neg (by omega), hb, hp]
    simp [hcz, marketReturn, show ¬ t = 0 by omega, closeAt, hb, hp]

/-- Pointwise value of the net-return column on well-shaped input. -/
theorem netRet_eq (c s : ℚ) (bars : List Bar) (signals : List ℚ)
    (hlen : signals.length = bars.length) (hpos : ∀ b ∈ bars, b.close ≠ 0)
    {t : ℕ} (ht : t < bars.length) :
    netRet c s bars signals t =
      some (laggedPosition signals t * marketReturn bars t -
        tradeChange signals t * (c + s)) := by
  rw [netRet, strategyRet, signalCol_eq_lagged signals bars hlen ht,
    retCol_eq_market bars hpos ht]
  rfl

theorem cumFactor_eq (f : ℕ → Option ℚ) (g : ℕ → ℚ) (n : ℕ)
    (h : ∀ t < n, f t = some (g t)) (hn : 0 < n) :
    cumFactor f (n - 1) = ((List.range n).map fun t => 1 + g t).prod := by
  rw [cumFactor, show n - 1 + 1 = n by omega]
  congr 1
  apply List.map_congr_left
  intro t ht
  rw [h t (List.mem_range.mp ht)]
  rfl

/-- C5: with zero commission and zero slippage, the reported FinalEquity is
exactly the initial capital times the product over all bars of
`1 + LaggedPosition[t] * MarketReturn[t]`. -/
theorem c5_cost_invariance (bars : List Bar) (signals : List ℚ) (cap : ℚ)
    (hne : bars ≠ []) (hlen : signals.length = bars.length)
    (hpos : ∀ b ∈ bars, b.close ≠ 0) :
    (Backtester.run 0 0 bars signals cap).map (fun r => r.stats.finalEquity) =
      Except.ok (some (cap *
        ((List.range bars.length).map fun t =>
          1 + laggedPosition signals t * marketReturn bars t).prod)) := by
  have hN : 0 < bars.length := List.length_pos.mpr hne
  set rs := (List.range bars.length).map (netRet 0 0 bars signals) with hrs
  have hlenrs : rs.length = bars.length := by simp [hrs]
  have hget : ∀ t < bars.length, rs.getD t none =
      some (laggedPosition signals t * marketReturn bars t) := by
    intro t ht
    rw [hrs, getD_map_range, if_pos ht, netRet_eq 0 0 bars signals hlen hpos ht]
    norm_num
  have hlast : lastEq rs = some (((List.range bars.length).map fun t =>
      1 + laggedPosition signals t * marketReturn bars t).prod) := by
    rw [lastEq, hlenrs, eqStat, cumProdCol, hget (bars.length - 1) (by omega),
      cumFactor_eq (fun k => rs.getD k none) _ bars.length hget hN]
    rfl
  simp [Backtester.run, ← hrs, calcStats, show ¬ rs.length = 0 by omega, Except.map,
    finalEquityOf, hlast, mul_comm]

theorem c5_witness :
    (([⟨0, 100⟩, ⟨1, 110⟩] : List Bar) ≠ [] ∧
      ([1, 0] : List ℚ).length = ([⟨0, 100⟩, ⟨1, 110⟩] : List Bar).length ∧
      ∀ b ∈ ([⟨0, 100⟩, ⟨1, 110⟩] : List Bar), b.close ≠ 0) ∧
    (Backtester.run 0 0 [⟨0, 100⟩, ⟨1, 110⟩] [1, 0] 1000000).map
        (fun r => r.stats.finalEquity) =
      Except.ok (some (1000000 *
        ((List.range ([⟨0, 100⟩, ⟨1, 110⟩] : List Bar).length).map fun t =>
          1 + laggedPosition [1, 0] t * marketReturn [⟨0, 100⟩, ⟨1, 110⟩] t).prod)) :=
  ⟨⟨by decide, by decide, by decide⟩,
    c5_cost_invariance [⟨0, 100⟩, ⟨1, 110⟩] [1, 0] 1000000 (by decide) (by decide)
      (by decide)⟩

theorem signalCol_flat_lt (signals : List ℚ) (hflat : ∀ x ∈ signals, x = 0)
    {t : ℕ} (ht : t < signals.length) : signalCol signals t = some 0 := by
  rcases Nat.eq_zero_or_pos t with h0 | hpos
  · subst h0
    simp [signalCol, ht]
  · have ht1 : t - 1 < signals.length := by omega
    have hgd : signals.getD (t - 1) 0 = 0 := by
      rw [List.getD_eq_getElem signals 0 ht1]
      exact hflat _ (List.getElem_mem ht1)
    rw [List.getD_eq_getElem?_getD] at hgd
    simp [signalCol, ht, show ¬ t = 0 by omega, hgd]

theorem lagged_flat (signals : List ℚ) (hflat : ∀ x ∈ signals, x = 0) (t : ℕ) :
    laggedPosition signals t = 0 := by
  rw [laggedPosition]
  split
  · rfl
  · rcases Nat.lt_or_ge (t - 1) signals.length with h | h
    · rw [List.getD_eq_getElem signals 0 h]
      exact hflat _ (List.getElem_mem h)
    · rw [List.getD_eq_getElem?_getD, List.getElem?_eq_none h]
      rfl

theorem signalCol_flat (signals : List ℚ) (hflat : ∀ x ∈ signals, x = 0) (t : ℕ) :
    signalCol signals t = some 0 ∨ signalCol signals t = none := by
  rcases Nat.lt_or_ge t signals.length with h | h
  · exact Or.inl (signalCol_flat_lt signals hflat h)
  · right
    rw [signalCol, if_neg (by omega)]

theorem tradeChange_flat (signals : List ℚ) (hflat : ∀ x ∈ signals, x = 0) (t : ℕ) :
    tradeChange signals t = 0 := by
  rw [tradeChange]
  split
  · rfl
  · rcases signalCol_flat signals hflat t with h1 | h1 <;>
      rcases signalCol_flat signals hflat (t - 1) with h2 | h2 <;>
      simp [h1, h2]

theorem netRet_flat (c s : ℚ) (bars : List Bar) (signals : List ℚ)
    (hlen : signals.length = bars.length) (hpos : ∀ b ∈ bars, b.close ≠ 0)
    (hflat : ∀ x ∈ signals, x = 0) {t : ℕ} (ht : t < bars.length) :
    netRet c s bars signals t = some 0 := by
  rw [netRet_eq c s bars signals hlen hpos ht, lagged_flat signals hflat t,
    tradeChange_flat signals hflat t]
  norm_num

theorem validList_map_range (f : ℕ → Option ℚ) (g : ℕ → ℚ) :
    ∀ n, (∀ t < n, f t = some (g t)) →
      validList ((List.range n).map f) = (List.range n).map g := by
  intro n
  induction n with
  | zero => intro _; rfl
  | succ n ih =>
      intro h
      rw [List.range_succ, List.map_append, List.map_append, validList,
        List.filterMap_append]
      have h1 := ih fun t ht => h t (by omega)
      rw [validList] at h1
      rw [h1]
      simp [h n (by omega)]

theorem filterMap_range_const (f : ℕ → Option ℚ) (v : ℚ) :
    ∀ n, (∀ t < n, f t = some v) →
      (List.range n).filterMap f = (List.range n).map fun _ => v := by
  intro n
  induction n with
  | zero => intro _; rfl
  | succ n ih =>
      intro h
      rw [List.range_succ, List.filterMap_append, List.map_append,
        ih fun t ht => h t (by omega)]
      simp [h n (by omega)]

theorem foldl_max_const (v : ℚ) : ∀ l : List ℚ, (∀ x ∈ l, x = v) →
    l.foldl max v = v := by
  intro l
  induction l with
  | nil => intro _; rfl
  | cons x xs ih =>
      intro h
      rw [List.foldl_cons, h x (by simp), max_self]
      exact ih fun y hy => h y (by simp [hy])

theorem foldl_min_const (v : ℚ) : ∀ l : List ℚ, (∀ x ∈ l, x = v) →
    l.foldl min v = v := by
  intro l
  induction l with
  | nil => intro _; rfl
  | cons x xs ih =>
      intro h
      rw [List.foldl_cons, h x (by simp), min_self]
      exact ih fun y hy => h y (by simp [hy])

theorem seriesMin_const (v : ℚ) (l : List ℚ) (h : ∀ x ∈ l, x = v) (hne : l ≠ []) :
    seriesMin l = some v := by
  cases l with
  | nil => exact absurd rfl hne
  | cons x xs =>
      have hx : x = v := h x (by simp)
      subst hx
      show some (xs.foldl min x) = some x
      rw [foldl_min_const x xs fun y hy => h y (by simp [hy])]

theorem filter_neg_const_zero : ∀ l : List ℚ, (∀ x ∈ l, x = 0) →
    (l.filter fun x => x < 0) = [] := by
  intro l
  induction l with
  | nil => intro _; rfl
  | cons x xs ih =>
      intro h
      rw [List.filter_cons]
      have hx : x = 0 := h x (by simp)
      simp [hx, ih fun y hy => h y (by simp [hy])]

theorem cumFactor_zero (f : ℕ → Option ℚ) {n t : ℕ} (h : ∀ k < n, f k = some 0)
    (ht : t < n) : cumFactor f t = 1 := by
  rw [cumFactor]
  apply List.prod_eq_one
  intro x hx
  obtain ⟨k, hk, rfl⟩ := List.mem_map.mp hx
  have hkn : k < n := by
    have hkt := List.mem_range.mp hk
    omega
  rw [h k hkn]
  norm_num

/-- C1 (counterexample): on closes `[100,110,121,121]` with raw signal
`[0,1,1,0]`, the scan loop — which walks the lagged signal column — emits no
trade at all, so the claimed "exactly one Trade" is false. -/
theorem c1_counterexample :
    ¬ (tradesOf [⟨0, 100⟩, ⟨1, 110⟩, ⟨2, 121⟩, ⟨3, 121⟩] [0, 1, 1, 0]).length = 1 := by
  decide

/-- C1 (amended): for the 4-bar input with closes `[100,110,121,121]` and raw
signal `[0,1,1,0]`, the lagged position series is `[0,0,1,1]`; the scan opens
a long at bar index 2 (close 121) which is still open at series end and is
dropped, so the emitted trade list is empty; and with the default rates
(commission 0.004, slippage 0.0005) the cost term is nonzero exactly at
index 2, the only bar where the lagged position changes. -/
theorem c1_amended :
    (List.range 4).map (signalCol [0, 1, 1, 0]) = [some 0, some 0, some 1, some 1] ∧
    tradesOf [⟨0, 100⟩, ⟨1, 110⟩, ⟨2, 121⟩, ⟨3, 121⟩] [0, 1, 1, 0] = [] ∧
    (scanAfter [⟨0, 100⟩, ⟨1, 110⟩, ⟨2, 121⟩, ⟨3, 121⟩] [0, 1, 1, 0] 4).1 =
      ⟨some 1, some 121, some 2⟩ ∧
    (List.range 4).map (costs (4/1000) (5/10000) [0, 1, 1, 0]) = [0, 0, 9/2000, 0] := by
  refine ⟨by decide, by decide, by decide, ?_⟩
  norm_num [costs, tradeChange, signalCol, List.range_succ]

/-- C2 (amended): `run` performs no input-shape validation at all.  For every
nonempty bar list it returns a result, whatever the length of the signal
series (a mismatch is silently index-aligned, filling NaN); only an empty bar
list raises, and that happens inside `_calc_stats`, after the equity curve and
the trade list have been computed. -/
theorem c2_amended (c s : ℚ) (bars : List Bar) (signals : List ℚ) (cap : ℚ)
    (h : bars ≠ []) : exceptOk (Backtester.run c s bars signals cap) = true := by
  have hlen : bars.length ≠ 0 := fun hh => h (List.length_eq_zero.mp hh)
  simp [Backtester.run, calcStats, exceptOk, hlen]

theorem c2_witness :
    (([⟨0, 50⟩, ⟨1, 60⟩, ⟨2, 70⟩] : List Bar) ≠ [] ∧
      exceptOk (Backtester.run 0 0 [⟨0, 50⟩, ⟨1, 60⟩, ⟨2, 70⟩] [0] 500) = true) :=
  ⟨by decide, c2_amended 0 0 [⟨0, 50⟩, ⟨1, 60⟩, ⟨2, 70⟩] [0] 500 (by decide)⟩

/-- C2 (counterexample): with two price bars but a single-element signal
series — mismatched lengths — `run` does not abort; it completes and returns
a result. -/
theorem c2_counterexample :
    exceptOk (Backtester.run 0 0 [⟨0, 100⟩, ⟨1, 110⟩] [1] 1000) = true := rfl

/-- C3 (amended): on any single-bar input the net-return series has length 1,
so `returns.std()` (ddof=1) is NaN and the reported Volatility is NaN — not
the literal 0 the spec promises for `N < 2`.  The guarded statistics do fall
back to their literal degenerate values: Sharpe and Sortino are 0 (their
`> 0` guards are False on NaN) and Winrate is 0 (no trades). -/
theorem c3_amended (b : Bar) (sg c s cap : ℚ) :
    (Backtester.run c s [b] [sg] cap).map
      (fun r => (r.stats.volatility, r.stats.sharpe, r.stats.sortino, r.stats.winrate)) =
    Except.ok (none, some 0, some 0, 0) := by
  have hnr : netRet c s [b] [sg] 0 = some 0 := by
    simp [netRet, strategyRet, signalCol, retCol, costs, tradeChange, omul, osub]
  have hrs : (List.range 1).map (netRet c s [b] [sg]) = [some 0] := by
    simp [List.range_succ, hnr]
  have htr : tradesOf [b] [sg] = [] := by
    simp [tradesOf, rowsOf, signalCol, tradeStep, initScan, pyEqZero, pyNeZero, pyNe,
      dateAt, closeAt, List.range_succ]
  simp [Backtester.run, calcStats, hrs, htr, volOf, sharpeOf, sortinoOf, stdR,
    validList, downsideOf, posR, winrateOf, meanQ, Except.map]

/-- C3 (counterexample): a concrete single-bar run reports Volatility = NaN,
not the degenerate value 0 required by the claim. -/
theorem c3_counterexample :
    ¬ (Backtester.run (1/100) (1/1000) [⟨5, 200⟩] [1] 500).map
        (fun r => r.stats.volatility) = Except.ok (some 0) := by
  have h : (Backtester.run (1/100) (1/1000) [⟨5, 200⟩] [1] 500).map
      (fun r => r.stats.volatility) = Except.ok none := rfl
  rw [h]
  simp

theorem tradesOf_eq_scanAfter (bars : List Bar) (signals : List ℚ) :
    tradesOf bars signals = (scanAfter bars signals bars.length).2 := by
  rw [tradesOf, scanAfter, List.take_of_length_le (by simp [rowsOf])]

/-- C4: the trade list contains only transition-closed trades.  For every
index-aligned input, each emitted Trade exits at some bar `t` where the
lagged position leaves a nonzero value (`LaggedPosition[t-1] = v ≠ 0` and
`LaggedPosition[t] = w ≠ v`); a position still open when the scan reaches
series end is therefore never emitted.  In particular, with signal
identically 1 the lagged position is nonzero at the final bar (for at least
two bars), yet the trade list is empty. -/
theorem c4_open_trade_dropped (bars : List Bar) (signals : List ℚ)
    (hlen : signals.length = bars.length) :
    (∀ tr ∈ tradesOf bars signals, ∃ t, 0 < t ∧ t < bars.length ∧
      tr.exit_date = dateAt bars t ∧ tr.exit_price = closeAt bars t ∧
      ∃ v w, signalCol signals (t - 1) = some v ∧ signalCol signals t = some w ∧
        v ≠ 0 ∧ w ≠ v) ∧
    ((∀ x ∈ signals, x = 1) → tradesOf bars signals = [] ∧
      (2 ≤ bars.length → signalCol signals (bars.length - 1) = some 1)) := by
  constructor
  · have hgen : ∀ k, k ≤ bars.length → ∀ tr ∈ (scanAfter bars signals k).2,
        ∃ t, 0 < t ∧ t < bars.length ∧ tr.exit_date = dateAt bars t ∧
          tr.exit_price = closeAt bars t ∧
          ∃ v w, signalCol signals (t - 1) = some v ∧
            signalCol signals t = some w ∧ v ≠ 0 ∧ w ≠ v := by
      intro k
      induction k with
      | zero =>
          intro _ tr htr
          rw [scanAfter_zero] at htr
          simp at htr
      | succ k ih =>
          intro hk1 tr htr
          have hk : k < bars.length := by omega
          obtain ⟨w, hw⟩ : ∃ w, signalCol signals k = some w :=
            ⟨if k = 0 then 0 else signals.getD (k - 1) 0, by
              simp [signalCol, show k < signals.length by omega]⟩
          obtain ⟨v, hv⟩ : ∃ v, (scanAfter bars signals k).1.position = some v := by
            rcases Nat.eq_zero_or_pos k with h0 | hpos
            · subst h0; exact ⟨0, rfl⟩
            · have h := scan_position bars signals hlen (k - 1) (by omega)
              rw [show k - 1 + 1 = k by omega] at h
              refine ⟨if k - 1 = 0 then 0 else signals.getD (k - 1 - 1) 0, ?_⟩
              rw [h]
              simp [signalCol, show k - 1 < signals.length by omega]
          rw [scanAfter_succ bars signals hk, hw] at htr
          by_cases hv0 : v = 0
          · by_cases hw0 : w = 0
            · have hid : tradeStep (scanAfter bars signals k)
                  ⟨dateAt bars k, closeAt bars k, some w⟩ =
                  scanAfter bars signals k := by
                simp [tradeStep, hv, hv0, hw0, pyEqZero, pyNeZero]
              rw [hid] at htr
              exact ih (by omega) tr htr
            · have hop : tradeStep (scanAfter bars signals k)
                  ⟨dateAt bars k, closeAt bars k, some w⟩ =
                  (⟨some w, some (closeAt bars k), some (dateAt bars k)⟩,
                    (scanAfter bars signals k).2) := by
                simp [tradeStep, hv, hv0, hw0, pyEqZero, pyNeZero]
              rw [hop] at htr
              exact ih (by omega) tr htr
          · by_cases hwv : w = v
            · have hid : tradeStep (scanAfter bars signals k)
                  ⟨dateAt bars k, closeAt bars k, some w⟩ =
                  scanAfter bars signals k := by
                simp [tradeStep, hv, hv0, hwv, pyEqZero, pyNeZero, pyNe]
              rw [hid] at htr
              exact ih (by omega) tr htr
            · have hcl : tradeStep (scanAfter bars signals k)
                  ⟨dateAt bars k, closeAt bars k, some w⟩ =
                  (⟨some w, some (closeAt bars k),
                      if pyNeZero (some w) then some (dateAt bars k) else none⟩,
                    (scanAfter bars signals k).2 ++
                      [⟨(scanAfter bars signals k).1.entry_date, dateAt bars k,
                        (scanAfter bars signals k).1.entry_price, closeAt bars k,
                        tradePnl (scanAfter bars signals k).1.entry_price
                          (closeAt bars k) (scanAfter bars signals k).1.position⟩]) := by
                simp [tradeStep, hv, hv0, hwv, pyEqZero, pyNeZero, pyNe]
              rw [hcl] at htr
              rcases List.mem_append.mp htr with hmem | hmem
              · exact ih (by omega) tr hmem
              · have htr' : tr = ⟨(scanAfter bars signals k).1.entry_date, dateAt bars k,
                    (scanAfter bars signals k).1.entry_price, closeAt bars k,
                    tradePnl (scanAfter bars signals k).1.entry_price (closeAt bars k)
                      (scanAfter bars signals k).1.position⟩ := by
                  simpa using hmem
                have hk0 : 0 < k := by
                  rcases Nat.eq_zero_or_pos k with h0 | h
                  · exfalso
                    subst h0
                    rw [scanAfter_zero] at hv
                    simp [initScan] at hv
                    exact hv0 hv.symm
                  · exact h
                have hvcol : signalCol signals (k - 1) = some v := by
                  have h := scan_position bars signals hlen (k - 1) (by omega)
                  rw [show k - 1 + 1 = k by omega] at h
                  rw [h] at hv
                  exact hv
                exact ⟨k, hk0, by omega, by rw [htr'], by rw [htr'],
                  v, w, hvcol, hw, hv0, hwv⟩
    intro tr htr
    rw [tradesOf_eq_scanAfter] at htr
    exact hgen bars.length le_rfl tr htr
  · intro hone
    have hval : ∀ t, 1 ≤ t → t < bars.length → signalCol signals t = some 1 := by
      intro t h1t ht
      have htm : t - 1 < signals.length := by omega
      have hgd : signals.getD (t - 1) 0 = 1 := by
        rw [List.getD_eq_getElem signals 0 htm]
        exact hone _ (List.getElem_mem htm)
      rw [List.getD_eq_getElem?_getD] at hgd
      simp [signalCol, show t < signals.length by omega, show ¬ t = 0 by omega, hgd]
    constructor
    · have hempty : ∀ k, k ≤ bars.length → (scanAfter bars signals k).2 = [] := by
        intro k
        induction k with
        | zero => intro _; rfl
        | succ k ih =>
            intro hk1
            have hk : k < bars.length := by omega
            have hacc := ih (by omega)
            rw [scanAfter_succ bars signals hk]
            rcases Nat.eq_zero_or_pos k with h0 | hposk
            · subst h0
              have hs : signalCol signals 0 = some 0 := by
                simp [signalCol, show 0 < signals.length by omega]
              rw [hs]
              simp [scanAfter_zero, tradeStep, initScan, pyEqZero, pyNeZero]
            · have hsig : signalCol signals k = some 1 := hval k hposk hk
              have hp := scan_position bars signals hlen (k - 1) (by omega)
              rw [show k - 1 + 1 = k by omega] at hp
              rcases Nat.lt_or_ge k 2 with hk2 | hk2
              · have h01 : k = 1 := by omega
                subst h01
                have hs0 : signalCol signals 0 = some 0 := by
                  simp [signalCol, show 0 < signals.length by omega]
                rw [hs0] at hp
                simp [tradeStep, hp, hsig, pyEqZero, pyNeZero, hacc]
              · have hp1 : (scanAfter bars signals k).1.position = some 1 := by
                  rw [hp]; exact hval (k - 1) (by omega) (by omega)
                simp [tradeStep, hp1, hsig, pyEqZero, pyNeZero, pyNe, hacc]
      rw [tradesOf_eq_scanAfter]
      exact hempty bars.length le_rfl
    · intro h2
      exact hval (bars.length - 1) (by omega) (by omega)

theorem c4_witness :
    ([1, 0, 1, 1] : List ℚ).length =
      ([⟨0, 10⟩, ⟨1, 11⟩, ⟨2, 12⟩, ⟨3, 13⟩] : List Bar).length ∧
    signalCol [1, 0, 1, 1] 3 = some 1 ∧
    (tradesOf [⟨0, 10⟩, ⟨1, 11⟩, ⟨2, 12⟩, ⟨3, 13⟩] [1, 0, 1, 1]).length = 1 ∧
    (∀ tr ∈ tradesOf [⟨0, 10⟩, ⟨1, 11⟩, ⟨2, 12⟩, ⟨3, 13⟩] [1, 0, 1, 1],
      ∃ t, 0 < t ∧ t < ([⟨0, 10⟩, ⟨1, 11⟩, ⟨2, 12⟩, ⟨3, 13⟩] : List Bar).length ∧
        tr.exit_date = dateAt [⟨0, 10⟩, ⟨1, 11⟩, ⟨2, 12⟩, ⟨3, 13⟩] t ∧
        tr.exit_price = closeAt [⟨0, 10⟩, ⟨1, 11⟩, ⟨2, 12⟩, ⟨3, 13⟩] t ∧
        ∃ v w, signalCol [1, 0, 1, 1] (t - 1) = some v ∧
          signalCol [1, 0, 1, 1] t = some w ∧ v ≠ 0 ∧ w ≠ v) :=
  ⟨by decide, by decide, by decide,
    (c4_open_trade_dropped [⟨0, 10⟩, ⟨1, 11⟩, ⟨2, 12⟩, ⟨3, 13⟩] [1, 0, 1, 1]
      (by decide)).1⟩

/-- C7: when the lagged position flips directly from 1 to -1 at bar `t`, the
scan closes the open long on bar `t` (exit at that bar's date and close) and
in the same step opens a short whose entry is that same date and close; the
position-change magnitude charged for bar `t` is 2. -/
theorem c7_flip (bars : List Bar) (signals : List ℚ) (t : ℕ)
    (hlen : signals.length = bars.length) (ht : t < bars.length)
    (h1 : signalCol signals (t - 1) = some 1)
    (h2 : signalCol signals t = some (-1)) :
    tradeChange signals t = 2 ∧
    (scanAfter bars signals (t + 1)).1 =
      ⟨some (-1), some (closeAt bars t), some (dateAt bars t)⟩ ∧
    (scanAfter bars signals (t + 1)).2 =
      (scanAfter bars signals t).2 ++
        [⟨(scanAfter bars signals t).1.entry_date, dateAt bars t,
          (scanAfter bars signals t).1.entry_price, closeAt bars t,
          tradePnl (scanAfter bars signals t).1.entry_price (closeAt bars t)
            (some 1)⟩] := by
  have ht0 : t ≠ 0 := by
    intro h0
    subst h0
    have hs : signalCol signals 0 = some 0 := by
      simp [signalCol, show 0 < signals.length by omega]
    rw [hs] at h1
    exact absurd (Option.some.inj h1) (by norm_num)
  have hp : (scanAfter bars signals t).1.position = some 1 := by
    have h := scan_position bars signals hlen (t - 1) (by omega)
    rw [show t - 1 + 1 = t by omega] at h
    rw [h, h1]
  have htc : tradeChange signals t = 2 := by
    rw [tradeChange, if_neg ht0, h1, h2]
    norm_num
  refine ⟨htc, ?_, ?_⟩
  · rw [scanAfter_succ bars signals ht, h2]
    simp [tradeStep, hp, pyEqZero, pyNeZero, pyNe]
    norm_num
  · rw [scanAfter_succ bars signals ht, h2]
    simp [tradeStep, hp, pyEqZero, pyNeZero, pyNe]
    norm_num

theorem c7_witness :
    ([1, -1, 0] : List ℚ).length = ([⟨0, 100⟩, ⟨1, 110⟩, ⟨2, 120⟩] : List Bar).length ∧
    signalCol [1, -1, 0] 1 = some 1 ∧ signalCol [1, -1, 0] 2 = some (-1) ∧
    tradeChange [1, -1, 0] 2 = 2 :=
  ⟨by decide, by decide, by decide,
    (c7_flip [⟨0, 100⟩, ⟨1, 110⟩, ⟨2, 120⟩] [1, -1, 0] 2 (by decide) (by decide)
      (by decide) (by decide)).1⟩

/-- Scan invariant: every trade emitted so far has an entry date of a
strictly earlier bar than its exit date, and an open position always carries
the entry date of some already-visited bar. -/
theorem scan_entry_exit (bars : List Bar) (signals : List ℚ)
    (hlen : signals.length = bars.length)
    (hm : ∀ i j, i < j → j < bars.length → dateAt bars i < dateAt bars j) :
    ∀ k, k ≤ bars.length →
      (∀ tr ∈ (scanAfter bars signals k).2,
        ∃ d, tr.entry_date = some d ∧ d < tr.exit_date) ∧
      (∀ v, (scanAfter bars signals k).1.position = some v → v ≠ 0 →
        ∃ j, j < k ∧ (scanAfter bars signals k).1.entry_date =
          some (dateAt bars j)) := by
  intro k
  induction k with
  | zero =>
      intro _
      refine ⟨by simp [scanAfter_zero], ?_⟩
      intro v hv hv0
      rw [scanAfter_zero] at hv
      simp [initScan] at hv
      exact absurd hv.symm hv0
  | succ k ih =>
      intro hk1
      have hk : k < bars.length := by omega
      obtain ⟨hacc, hst⟩ := ih (by omega)
      obtain ⟨w, hw⟩ : ∃ w, signalCol signals k = some w :=
        ⟨if k = 0 then 0 else signals.getD (k - 1) 0, by
          simp [signalCol, show k < signals.length by omega]⟩
      obtain ⟨v, hv⟩ : ∃ v, (scanAfter bars signals k).1.position = some v := by
        rcases Nat.eq_zero_or_pos k with h0 | hpos
        · subst h0; exact ⟨0, rfl⟩
        · have h := scan_position bars signals hlen (k - 1) (by omega)
          rw [show k - 1 + 1 = k by omega] at h
          refine ⟨if k - 1 = 0 then 0 else signals.getD (k - 1 - 1) 0, ?_⟩
          rw [h]
          simp [signalCol, show k - 1 < signals.length by omega]
      rw [scanAfter_succ bars signals hk, hw]
      by_cases hv0 : v = 0
      · by_cases hw0 : w = 0
        · have hid : tradeStep (scanAfter bars signals k)
              ⟨dateAt bars k, closeAt bars k, some w⟩ = scanAfter bars signals k := by
            simp [tradeStep, hv, hv0, hw0, pyEqZero, pyNeZero]
          rw [hid]
          refine ⟨hacc, ?_⟩
          intro u hu hu0
          obtain ⟨j, hj, hj2⟩ := hst u hu hu0
          exact ⟨j, by omega, hj2⟩
        · have hop : tradeStep (scanAfter bars signals k)
              ⟨dateAt bars k, closeAt bars k, some w⟩ =
              (⟨some w, some (closeAt bars k), some (dateAt bars k)⟩,
                (scanAfter bars signals k).2) := by
            simp [tradeStep, hv, hv0, hw0, pyEqZero, pyNeZero]
          rw [hop]
          refine ⟨hacc, ?_⟩
          intro u _ _
          exact ⟨k, by omega, rfl⟩
      · by_cases hwv : w = v
        · have hid : tradeStep (scanAfter bars signals k)
              ⟨dateAt bars k, closeAt bars k, some w⟩ = scanAfter bars signals k := by
            simp [tradeStep, hv, hv0, hwv, pyEqZero, pyNeZero, pyNe]
          rw [hid]
          refine ⟨hacc, ?_⟩
          intro u hu hu0
          obtain ⟨j, hj, hj2⟩ := hst u hu hu0
          exact ⟨j, by omega, hj2⟩
        · obtain ⟨j, hj, hjd⟩ := hst v hv hv0
          have hcl : tradeStep (scanAfter bars signals k)
              ⟨dateAt bars k, closeAt bars k, some w⟩ =
              (⟨some w, some (closeAt bars k),
                  if pyNeZero (some w) then some (dateAt bars k) else none⟩,
                (scanAfter bars signals k).2 ++
                  [⟨(scanAfter bars signals k).1.entry_date, dateAt bars k,
                    (scanAfter bars signals k).1.entry_price, closeAt bars k,
                    tradePnl (scanAfter bars signals k).1.entry_price (closeAt bars k)
                      (scanAfter bars signals k).1.position⟩]) := by
            simp [tradeStep, hv, hv0, hwv, pyEqZero, pyNeZero, pyNe]
          rw [hcl]
          constructor
          · intro tr htr
            rcases List.mem_append.mp htr with hmem | hmem
            · exact hacc tr hmem
            · have htr' : tr = ⟨(scanAfter bars signals k).1.entry_date, dateAt bars k,
                  (scanAfter bars signals k).1.entry_price, closeAt bars k,
                  tradePnl (scanAfter bars signals k).1.entry_price (closeAt bars k)
                    (scanAfter bars signals k).1.position⟩ := by
                simpa using hmem
              refine ⟨dateAt bars j, ?_, ?_⟩
              · rw [htr']
                exact hjd
              · rw [htr']
                exact hm j k hj hk
          · intro u hu hu0
            have hwu : w = u := by simpa using hu
            subst hwu
            have hwz : pyNeZero (some w) = true := by
              simp [pyNeZero]
              exact hu0
            refine ⟨k, by omega, ?_⟩
            simp [hwz]

/-- C9: with strictly increasing bar dates (and an index-aligned signal
series), every emitted Trade has an entry date strictly before its exit
date. -/
theorem c9_entry_before_exit (bars : List Bar) (signals : List ℚ)
    (hlen : signals.length = bars.length)
    (hm : List.Pairwise (· < ·) (bars.map Bar.date)) :
    ∀ tr ∈ tradesOf bars signals, ∃ d, tr.entry_date = some d ∧ d < tr.exit_date := by
  have hm' : ∀ i j, i < j → j < bars.length → dateAt bars i < dateAt bars j := by
    intro i j hij hj
    have hi : i < bars.length := by omega
    have h := (List.pairwise_iff_getElem.mp hm) i j (by simpa) (by simpa) hij
    simpa [dateAt, List.getElem?_eq_getElem, hi, hj] using h
  rw [tradesOf_eq_scanAfter]
  exact (scan_entry_exit bars signals hlen hm' bars.length le_rfl).1

theorem c9_witness :
    ([1, 0, 0] : List ℚ).length = ([⟨0, 100⟩, ⟨1, 110⟩, ⟨2, 120⟩] : List Bar).length ∧
    List.Pairwise (· < ·) (([⟨0, 100⟩, ⟨1, 110⟩, ⟨2, 120⟩] : List Bar).map Bar.date) ∧
    ∀ tr ∈ tradesOf [⟨0, 100⟩, ⟨1, 110⟩, ⟨2, 120⟩] [1, 0, 0],
      ∃ d, tr.entry_date = some d ∧ d < tr.exit_date :=
  ⟨by decide, by decide,
    c9_entry_before_exit [⟨0, 100⟩, ⟨1, 110⟩, ⟨2, 120⟩] [1, 0, 0] (by decide) (by decide)⟩

/-- C6 (amended): for at least two bars with nonzero closes and a signal that
is 0 everywhere, the equity curve is constant at the initial capital, the
trade list is empty, and Volatility, Sharpe, Sortino, Winrate and MaxDD are
all 0 with FinalEquity equal to the initial capital.  (For a single bar the
claim fails: Volatility is NaN, see the counterexample.) -/
theorem c6_amended (c s : ℚ) (bars : List Bar) (signals : List ℚ) (cap : ℚ)
    (hlen : signals.length = bars.length) (hN2 : 2 ≤ bars.length)
    (hpos : ∀ b ∈ bars, b.close ≠ 0) (hflat : ∀ x ∈ signals, x = 0) :
    (∀ t < bars.length, equityCol c s bars signals cap t = some cap) ∧
    tradesOf bars signals = [] ∧
    (Backtester.run c s bars signals cap).map (fun r =>
        (r.stats.volatility, r.stats.sharpe, r.stats.sortino, r.stats.winrate,
          r.stats.maxDD, r.stats.finalEquity)) =
      Except.ok (some 0, some 0, some 0, 0, some 0, some cap) := by
  have hN : 0 < bars.length := by omega
  have hnr : ∀ t < bars.length, netRet c s bars signals t = some 0 :=
    fun t ht => netRet_flat c s bars signals hlen hpos hflat ht
  have heq : ∀ t < bars.length, equityCol c s bars signals cap t = some cap := by
    intro t ht
    rw [equityCol, cumProdCol, hnr t ht]
    have hcf := cumFactor_zero (netRet c s bars signals) hnr ht
    simp [hcf]
  have htr : tradesOf bars signals = [] := by
    have hall : ∀ r ∈ rowsOf bars signals, r.signal = some 0 := by
      intro r hr
      obtain ⟨t, ht, rfl⟩ := List.mem_map.mp hr
      have ht' : t < bars.length := List.mem_range.mp ht
      exact signalCol_flat_lt signals hflat (by omega)
    rw [tradesOf, foldl_flat (rowsOf bars signals) (initScan, []) hall rfl]
  set rs := (List.range bars.length).map (netRet c s bars signals) with hrs
  have hlenrs : rs.length = bars.length := by simp [hrs]
  have hget0 : ∀ t < bars.length, rs.getD t none = some 0 := by
    intro t ht
    rw [hrs, getD_map_range, if_pos ht]
    exact hnr t ht
  have hvalid : validList rs = (List.range bars.length).map fun _ => (0 : ℚ) := by
    rw [hrs]
    exact validList_map_range (netRet c s bars signals) (fun _ => 0) bars.length hnr
  have hxlen : ((List.range bars.length).map fun _ => (0 : ℚ)).length = bars.length := by
    simp
  have hsum : ((List.range bars.length).map fun _ => (0 : ℚ)).sum = 0 := by
    apply List.sum_eq_zero
    intro x hx
    obtain ⟨k, _, rfl⟩ := List.mem_map.mp hx
    rfl
  have hmean : meanVal ((List.range bars.length).map fun _ => (0 : ℚ)) = 0 := by
    rw [meanVal, hsum, zero_div]
  have hvar : varQ ((List.range bars.length).map fun _ => (0 : ℚ)) = 0 := by
    rw [varQ]
    have hz : ((((List.range bars.length).map fun _ => (0 : ℚ)).map
        fun x => (x - meanVal ((List.range bars.length).map fun _ => (0 : ℚ))) ^ 2).sum) =
        0 := by
      apply List.sum_eq_zero
      intro y hy
      obtain ⟨x, hx, rfl⟩ := List.mem_map.mp hy
      obtain ⟨k, hk, rfl⟩ := List.mem_map.mp hx
      rw [hmean]
      norm_num
    rw [hz, zero_div]
  have hstd : stdR (validList rs) = some 0 := by
    rw [hvalid, stdR, if_neg (by rw [hxlen]; omega), hvar]
    simp
  have hvol : volOf 252 rs = some 0 := by
    rw [volOf, hstd]
    simp
  have hsharpe : sharpeOf 252 rs = some 0 := by
    rw [sharpeOf, if_neg]
    rw [hvol]
    simp [posR]
  have hdl : ((validList rs).filter fun x => x < 0) = [] := by
    rw [hvalid]
    apply filter_neg_const_zero
    intro x hx
    obtain ⟨k, _, rfl⟩ := List.mem_map.mp hx
    rfl
  have hdown : downsideOf 252 rs = none := by
    rw [downsideOf, hdl]
    rfl
  have hsortino : sortinoOf 252 rs = some 0 := by
    rw [sortinoOf, if_neg]
    rw [hdown]
    simp [posR]
  have hstat : ∀ t < bars.length, eqStat rs t = some 1 := by
    intro t ht
    rw [eqStat, cumProdCol, hget0 t ht]
    simp only [Option.map_some']
    rw [cumFactor_zero (fun k => rs.getD k none) hget0 ht]
  have hdd : ∀ t < bars.length, ddCol rs t = some 0 := by
    intro t ht
    have hfm : (List.range t).filterMap (eqStat rs) =
        (List.range t).map fun _ => (1 : ℚ) :=
      filterMap_range_const (eqStat rs) 1 t fun k hk => hstat k (by omega)
    have hmax : cumMaxCol (eqStat rs) t = some 1 := by
      rw [cumMaxCol, hstat t ht]
      simp only [Option.map_some']
      rw [hfm, foldl_max_const 1 ((List.range t).map fun _ => (1 : ℚ)) ?_]
      intro x hx
      obtain ⟨k, _, rfl⟩ := List.mem_map.mp hx
      rfl
    rw [ddCol, hstat t ht, hmax]
    norm_num [odiv, osub]
  have hmdd : maxDDOf rs = some 0 := by
    rw [maxDDOf, hlenrs]
    have hfm2 : ((List.range bars.length).filterMap fun t => ddCol rs t) =
        (List.range bars.length).map fun _ => (0 : ℚ) :=
      filterMap_range_const (fun t => ddCol rs t) 0 bars.length hdd
    rw [hfm2]
    apply seriesMin_const
    · intro x hx
      obtain ⟨k, _, rfl⟩ := List.mem_map.mp hx
      rfl
    · intro hcon
      have hc2 := congrArg List.length hcon
      simp only [List.length_map, List.length_range, List.length_nil] at hc2
      omega
  have hfe : finalEquityOf rs cap = some cap := by
    rw [finalEquityOf, lastEq, hlenrs, hstat (bars.length - 1) (by omega)]
    simp
  refine ⟨heq, htr, ?_⟩
  simp [Backtester.run, ← hrs, calcStats, show ¬ rs.length = 0 by omega, Except.map,
    hvol, hsharpe, hsortino, hmdd, hfe, htr, winrateOf]

theorem c6_witness :
    (([0, 0] : List ℚ).length = ([⟨0, 8⟩, ⟨1, 9⟩] : List Bar).length ∧
      2 ≤ ([⟨0, 8⟩, ⟨1, 9⟩] : List Bar).length ∧
      (∀ b ∈ ([⟨0, 8⟩, ⟨1, 9⟩] : List Bar), b.close ≠ 0) ∧
      (∀ x ∈ ([0, 0] : List ℚ), x = 0)) ∧
    ((∀ t < ([⟨0, 8⟩, ⟨1, 9⟩] : List Bar).length,
        equityCol (4/1000) (5/10000) [⟨0, 8⟩, ⟨1, 9⟩] [0, 0] 2000 t = some 2000) ∧
      tradesOf [⟨0, 8⟩, ⟨1, 9⟩] [0, 0] = [] ∧
      (Backtester.run (4/1000) (5/10000) [⟨0, 8⟩, ⟨1, 9⟩] [0, 0] 2000).map (fun r =>
          (r.stats.volatility, r.stats.sharpe, r.stats.sortino, r.stats.winrate,
            r.stats.maxDD, r.stats.finalEquity)) =
        Except.ok (some 0, some 0, some 0, 0, some 0, some 2000)) :=
  ⟨⟨by decide, by decide, by decide, by decide⟩,
    c6_amended (4/1000) (5/10000) [⟨0, 8⟩, ⟨1, 9⟩] [0, 0] 2000 (by decide) (by decide)
      (by decide) (by decide)⟩

/-- C6 (counterexample): on a single-bar all-flat input the engine reports
Volatility = NaN, not the 0 the claim requires of every price series. -/
theorem c6_counterexample :
    ¬ (Backtester.run (4/1000) (5/10000) [⟨7, 50⟩] [0] 2000).map
        (fun r => r.stats.volatility) = Except.ok (some 0) := by
  have h : (Backtester.run (4/1000) (5/10000) [⟨7, 50⟩] [0] 2000).map
      (fun r => r.stats.volatility) = Except.ok none := rfl
  rw [h]
  simp

/-- C8: the two engine variants are one design differing only in constants:
`BacktesterMin.run` with `bars_per_year = 252` coincides with
`Backtester.run` on every input, for the same commission and slippage. -/
theorem c8_equiv (c s : ℚ) (bars : List Bar) (signals : List ℚ) (cap : ℚ) :
    BacktesterMin.run c s 252 bars signals cap = Backtester.run c s bars signals cap :=
  rfl

end AlgoTrading
